import Mathlib

/-! Verification of the hybrid retrieval engine of advanced_rag.py.

The Python source is shallowly embedded: pure fragments become Lean
functions over `List`, `String` and `ℚ` (floating point scores are
modelled as rationals); Python dictionaries become insertion-ordered
association lists; code that can raise becomes `Except String`.
External library capabilities (the BM25 scorer, the FAISS index, the
ChromaDB collection, the sentence embedder and the cross-encoder) are
modelled as function parameters, since their internals are outside the
repository; every control-flow decision around them is embedded
faithfully from the source.

Python string primitives are re-implemented structurally over
`List Char` so that concrete evaluations reduce in the kernel:
`pySplitOn` is `str.split(sep)`, `pyStrip` is `str.strip()`,
`pyTokenize` is `str.lower().split()`, `pyTakeLast xs k` is the slice
`xs[-k:]` (note that for `k = 0` Python yields the whole list).
-/

namespace Rag

/-- pyStartsWithL text pat tests whether pat is an initial segment of text. -/
def pyStartsWithL : List Char → List Char → Bool
  | _, [] => true
  | [], _ :: _ => false
  | c :: cs, p :: ps => c == p && pyStartsWithL cs ps

/-- pySplitOnFuel implements Python str.split(sep) for a non-empty sep,
with explicit fuel (one unit per consumed character) to keep the
recursion structural. -/
def pySplitOnFuel (sep : List Char) : Nat → List Char → List (List Char)
  | 0, cs => [cs]
  | _ + 1, [] => [[]]
  | fuel + 1, c :: cs =>
    if pyStartsWithL (c :: cs) sep then
      [] :: pySplitOnFuel sep fuel ((c :: cs).drop sep.length)
    else
      match pySplitOnFuel sep fuel cs with
      | [] => [[c]]
      | t :: ts => (c :: t) :: ts

/-- pySplitOn sep s is Python s.split(sep) for a non-empty separator. -/
def pySplitOn (sep : String) (s : String) : List String :=
  if sep.data.isEmpty then [s]
  else (pySplitOnFuel sep.data s.data.length s.data).map String.mk

/-- pyStripL removes leading and trailing whitespace characters. -/
def pyStripL (cs : List Char) : List Char :=
  ((cs.dropWhile Char.isWhitespace).reverse.dropWhile Char.isWhitespace).reverse

/-- pyStrip is Python str.strip(). -/
def pyStrip (s : String) : String := String.mk (pyStripL s.data)

/-- pyReplaceChar a b s is Python s.replace(a, b) for single characters. -/
def pyReplaceChar (a b : Char) (s : String) : String :=
  String.mk (s.data.map fun c => if c = a then b else c)

/-- pyEndsWith s suf is Python s.endswith(suf). -/
def pyEndsWith (s suf : String) : Bool :=
  pyStartsWithL s.data.reverse suf.data.reverse

/-- pyLower is Python str.lower() (ASCII case folding). -/
def pyLower (s : String) : String := String.mk (s.data.map Char.toLower)

/-- wordsAux splits a character list on runs of whitespace, discarding
empty fragments; the first argument accumulates the current word
reversed. -/
def wordsAux : List Char → List Char → List (List Char)
  | acc, [] => if acc.isEmpty then [] else [acc.reverse]
  | acc, c :: cs =>
    if c.isWhitespace then
      if acc.isEmpty then wordsAux [] cs else acc.reverse :: wordsAux [] cs
    else wordsAux (c :: acc) cs

/-- pyTokenize is Python query.lower().split(): lowercase
whitespace-splitting with empty tokens dropped. -/
def pyTokenize (s : String) : List String :=
  (wordsAux [] (pyLower s).data).map String.mk

/-- pyTakeLast xs k is the Python slice xs[-k:].  For k = 0 the slice
is xs[0:], which is the whole list; otherwise it is the last
min k (length xs) elements. -/
def pyTakeLast (xs : List α) (k : Nat) : List α :=
  if k = 0 then xs else xs.drop (xs.length - k)

/-- MVal is the type of metadata and filter values: Python strings, or
numbers (int and float collapse into one numeric tower, matching
Python equality 1 == 1.0). -/
inductive MVal where
  | str (s : String)
  | num (q : ℚ)
deriving DecidableEq

/-- Doc embeds the Document dataclass: id, text, source path, optional
page, chunk index, metadata dictionary and embedding vector. -/
structure Doc where
  id : String
  text : String
  source : String
  page : Option Nat
  chunkIndex : Nat
  metadata : List (String × MVal)
  embedding : List ℚ
deriving DecidableEq

/-- dfltDoc is a junk document used only to give total meaning to
out-of-range list indexing; theorems carry length hypotheses that make
it unreachable. -/
def dfltDoc : Doc := ⟨"", "", "", none, 0, [], []⟩

/-- pathName models pathlib Path(source).name: the final path
component. -/
def pathName (s : String) : String :=
  (((pySplitOn "/" s).filter (fun c => c ≠ "")).getLastD "")

/-- pyRfind cs c is Python cs.rfind(c): the index of the last
occurrence, or -1. -/
def pyRfind (cs : List Char) (c : Char) : Int :=
  match cs with
  | [] => -1
  | x :: xs =>
    let r := pyRfind xs c
    if r ≥ 0 then r + 1 else if x = c then 0 else -1

/-- pathStem models pathlib Path(source).stem: the final component
with its last dot-suffix removed, where a suffix exists only if the
last dot is neither the first nor the last character of the name. -/
def pathStem (s : String) : String :=
  let n := pathName s
  let i := pyRfind n.data '.'
  if 0 < i ∧ i < (n.length : Int) - 1 then String.mk (n.data.take i.toNat) else n

/-- getCitation embeds Document.get_citation: "[stem, p. page]" when
the page is known, else "[stem]". -/
def getCitation (d : Doc) : String :=
  match d.page with
  | some p => "[" ++ pathStem d.source ++ ", p. " ++ toString p ++ "]"
  | none => "[" ++ pathStem d.source ++ "]"

/-- chunkStep is one iteration of the sentence-packing loop of
AdvancedRAGSystem._chunk_text: state is (closed chunks, current chunk,
current size).  On overflow the chunk is closed and the new chunk is
seeded from current_chunk.split(".")[-3:]. -/
def chunkStep (chunkSize : Nat) (st : List String × String × Nat) (sentence : String) :
    List String × String × Nat :=
  let chunks := st.1
  let current := st.2.1
  let size := st.2.2
  if size + sentence.length > chunkSize ∧ current ≠ "" then
    let overlap := pyTakeLast (pySplitOn "." current) 3
    let seeded := pyStrip (String.intercalate "." overlap)
    let seeded2 := if seeded ≠ "" ∧ pyEndsWith seeded "." = false then seeded ++ "." else seeded
    let current2 := seeded2 ++ " " ++ sentence
    (chunks ++ [pyStrip current], current2, current2.length)
  else
    let current2 := if current ≠ "" then current ++ " " ++ sentence else sentence
    (chunks, current2, size + sentence.length)

/-- chunkText embeds AdvancedRAGSystem._chunk_text: newline folding,
sentence split on ". ", strip-and-redot, greedy packing with the
overlap re-seeding of chunkStep, and a final flush of the last
chunk. -/
def chunkText (chunkSize : Nat) (text : String) : List String :=
  let pieces := pySplitOn ". " (pyReplaceChar (Char.ofNat 10) ' ' text)
  let sentences := (pieces.filter (fun s => pyStrip s ≠ "")).map (fun s => pyStrip s ++ ".")
  let st := sentences.foldl (chunkStep chunkSize) ([], "", 0)
  if pyStrip st.2.1 ≠ "" then st.1 ++ [pyStrip st.2.1] else st.1

/-- scoreDescRel is the descending-score ordering used by the Python
stable sorts candidates.sort(key=score, reverse=True); insertionSort
with this relation is stable, hence produces the same list as the
Python sort. -/
def scoreDescRel (a b : Doc × ℚ) : Prop := b.2 ≤ a.2

instance : DecidableRel scoreDescRel := fun a b => inferInstanceAs (Decidable (b.2 ≤ a.2))

instance : IsTotal (Doc × ℚ) scoreDescRel := ⟨fun a b => le_total b.2 a.2⟩

instance : IsTrans (Doc × ℚ) scoreDescRel := ⟨fun _ _ _ h1 h2 => le_trans h2 h1⟩

/-- sortByScoreDesc embeds candidates.sort(key=lambda x: x[1],
reverse=True): a stable descending sort on the score component. -/
def sortByScoreDesc (cands : List (Doc × ℚ)) : List (Doc × ℚ) :=
  List.insertionSort scoreDescRel cands

/-- argsortAsc embeds np.argsort(scores): the indices of scores sorted
ascending by value (tie order is deterministic; numpy leaves it
unspecified). -/
def argsortAsc (scores : List ℚ) : List Nat :=
  List.insertionSort (fun i j => scores.getD i 0 ≤ scores.getD j 0) (List.range scores.length)

/-- sparseSearch embeds HybridRetriever._sparse_search: empty when the
BM25 backend is absent, otherwise score every document with the
backend on the lowercase whitespace-tokenized query, take the indices
of the top k scores (numpy slice [-k:] reversed) and keep the strictly
positive ones.  The backend capability is a function from tokenized
query to one score per corpus document. -/
def sparseSearch (documents : List Doc) (bm25 : Option (List String → List ℚ))
    (query : String) (k : Nat) : List (Doc × ℚ) :=
  match bm25 with
  | none => []
  | some getScores =>
    let scores := getScores (pyTokenize query)
    let top := (pyTakeLast (argsortAsc scores) k).reverse
    (top.filter (fun idx => 0 < scores.getD idx 0)).map
      (fun idx => (documents.getD idx dfltDoc, scores.getD idx 0))

/-- DenseBackend models the dense-index configuration of the
retriever: an optional FAISS index (absorbing query normalization and
index.search, returning (index, score) rows) and an optional ChromaDB
collection (returning (id, distance) rows).  Both absent means the
numpy brute-force fallback. -/
structure DenseBackend where
  faissIndex : Option (List ℚ → Nat → List (Int × ℚ))
  chroma : Option (List ℚ → Nat → List (String × ℚ))

/-- dotProduct is np.dot on two vectors. -/
def dotProduct (xs ys : List ℚ) : ℚ :=
  ((xs.zip ys).map (fun p => p.1 * p.2)).sum

/-- lookupByIndex resolves FAISS result rows documents[idx]; an index
past the corpus raises IndexError. -/
def lookupByIndex (documents : List Doc) : List (Int × ℚ) → Except String (List (Doc × ℚ))
  | [] => .ok []
  | (idx, score) :: rest =>
    match documents[idx.toNat]? with
    | some d => (lookupByIndex documents rest).map (fun r => (d, score) :: r)
    | none => .error "IndexError"

/-- lookupByIdDist resolves ChromaDB result rows through
next(d for d in documents if d.id == doc_id), converting distance to
similarity 1 - distance; a missing id raises StopIteration. -/
def lookupByIdDist (documents : List Doc) : List (String × ℚ) → Except String (List (Doc × ℚ))
  | [] => .ok []
  | (docId, dist) :: rest =>
    match documents.find? (fun d => d.id == docId) with
    | some d => (lookupByIdDist documents rest).map (fun r => (d, 1 - dist) :: r)
    | none => .error "StopIteration"

/-- denseSearch embeds HybridRetriever._dense_search: FAISS when an
index is loaded, else ChromaDB when a collection exists, else the
numpy fallback np.dot(embeddings, query).  On an empty corpus the
fallback builds the empty array np.array([]) of shape (0,), and
np.dot then raises ValueError: shapes not aligned. -/
def denseSearch (documents : List Doc) (backend : DenseBackend) (qEmb : List ℚ)
    (k : Nat) : Except String (List (Doc × ℚ)) :=
  match backend.faissIndex with
  | some searchIdx => lookupByIndex documents ((searchIdx qEmb k).filter (fun p => 0 ≤ p.1))
  | none =>
    match backend.chroma with
    | some queryFn => lookupByIdDist documents (queryFn qEmb k)
    | none =>
      if documents.isEmpty then .error "ValueError"
      else
        let sims := documents.map (fun d => dotProduct d.embedding qEmb)
        let top := (pyTakeLast (argsortAsc sims) k).reverse
        .ok (top.map (fun idx => (documents.getD idx dfltDoc, sims.getD idx 0)))

/-- dictGet is Python dict lookup on an insertion-ordered association
list. -/
def dictGet (d : List (String × ℚ)) (key : String) : Option ℚ :=
  (d.find? (fun p => p.1 == key)).map (fun p => p.2)

/-- dictSet is Python dict assignment: update in place when the key
exists, else append at the end (insertion order). -/
def dictSet : List (String × ℚ) → String → ℚ → List (String × ℚ)
  | [], key, v => [(key, v)]
  | (k0, v0) :: rest, key, v =>
    if k0 == key then (k0, v) :: rest else (k0, v0) :: dictSet rest key v

/-- sparseIns is the sparse-result loop body of
HybridRetriever.search: combined_scores[doc.id] = (1-alpha)*score. -/
def sparseIns (alpha : ℚ) (acc : List (String × ℚ)) (p : Doc × ℚ) : List (String × ℚ) :=
  dictSet acc p.1.id ((1 - alpha) * p.2)

/-- denseIns is the dense-result loop body of HybridRetriever.search:
add alpha*score to an existing entry, else create the entry with
alpha*score. -/
def denseIns (alpha : ℚ) (acc : List (String × ℚ)) (p : Doc × ℚ) : List (String × ℚ) :=
  match dictGet acc p.1.id with
  | some v => dictSet acc p.1.id (v + alpha * p.2)
  | none => dictSet acc p.1.id (alpha * p.2)

/-- combineScores embeds the combined_scores dictionary of
HybridRetriever.search: sparse entries written first, dense entries
merged on top. -/
def combineScores (sparseResults denseResults : List (Doc × ℚ)) (alpha : ℚ) :
    List (String × ℚ) :=
  denseResults.foldl (denseIns alpha) (sparseResults.foldl (sparseIns alpha) [])

/-- lookupCandidates resolves each combined_scores entry back to a
document via next(d for d in documents if d.id == doc_id); a missing
id raises StopIteration. -/
def lookupCandidates (documents : List Doc) : List (String × ℚ) → Except String (List (Doc × ℚ))
  | [] => .ok []
  | (docId, score) :: rest =>
    match documents.find? (fun d => d.id == docId) with
    | some d => (lookupCandidates documents rest).map (fun r => (d, score) :: r)
    | none => .error "StopIteration"

/-- metadataCheck is the third elif of the predicate loop of
HybridRetriever._apply_filters: exclude when the key is present in the
metadata with a different value, else continue with the rest of the
loop (passed as the continuation k). -/
def metadataCheck (d : Doc) (key : String) (v : MVal) (k : Except String Bool) :
    Except String Bool :=
  match d.metadata.lookup key with
  | some mv => if mv = v then k else Except.ok false
  | none => k

/-- passFilter embeds the inner predicate loop of
HybridRetriever._apply_filters for one candidate, with the break on
the first failing condition and the elif fall-through of the source:
the first condition excludes when the key is "source" and the source
differs; otherwise, a "min_score" key compares the current score
(raising TypeError on a non-numeric bound, as Python float comparison
would) and excludes when the score is below the bound; a candidate
surviving both still reaches the metadata condition, which excludes
any key (including "source" and "min_score") present in the metadata
with a different value. -/
def passFilter (d : Doc) (score : ℚ) : List (String × MVal) → Except String Bool
  | [] => .ok true
  | (key, v) :: rest =>
    if key = "source" ∧ v ≠ MVal.str d.source then .ok false
    else if key = "min_score" then
      match v with
      | .num q =>
        if score < q then .ok false
        else metadataCheck d key v (passFilter d score rest)
      | .str _ => .error "TypeError"
    else metadataCheck d key v (passFilter d score rest)

/-- applyFilters embeds HybridRetriever._apply_filters: keep the
candidates whose passFilter run returns true, in order. -/
def applyFilters (cands : List (Doc × ℚ)) (filters : List (String × MVal)) :
    Except String (List (Doc × ℚ)) :=
  match cands with
  | [] => .ok []
  | (d, s) :: rest =>
    match passFilter d s filters with
    | .error e => .error e
    | .ok keep =>
      match applyFilters rest filters with
      | .error e => .error e
      | .ok tail => .ok (if keep then (d, s) :: tail else tail)

/-- rerankScore is the blended score of HybridRetriever._rerank:
0.3 * (retrieval+1)/2 + 0.7 * (rerank+1)/2, with no clamping. -/
def rerankScore (retrieval rerank : ℚ) : ℚ :=
  3/10 * ((retrieval + 1) / 2) + 7/10 * ((rerank + 1) / 2)

/-- rerankStage embeds HybridRetriever._rerank: rescore every
candidate with the cross-encoder capability (a score per
(query, text) pair), stable-sort descending, truncate to k. -/
def rerankStage (reranker : String → String → ℚ) (query : String)
    (candidates : List (Doc × ℚ)) (k : Nat) : List (Doc × ℚ) :=
  let reranked := candidates.map (fun p => (p.1, rerankScore p.2 (reranker query p.1.text)))
  (sortByScoreDesc reranked).take k

/-- finalStage embeds the tail of HybridRetriever.search: rerank when
use_reranking is set, a reranker exists and the candidate list is
non-empty; otherwise truncate the fused ranking to k. -/
def finalStage (reranker : Option (String → String → ℚ)) (useReranking : Bool)
    (query : String) (cands : List (Doc × ℚ)) (k : Nat) : List (Doc × ℚ) :=
  match useReranking, reranker with
  | true, some rr => if cands.isEmpty then cands.take k else rerankStage rr query cands k
  | _, _ => cands.take k

/-- Retriever is the state of HybridRetriever: the corpus, the
optional BM25 backend, the dense backend configuration, the optional
cross-encoder and the embedder capability. -/
structure Retriever where
  documents : List Doc
  bm25 : Option (List String → List ℚ)
  dense : DenseBackend
  reranker : Option (String → String → ℚ)
  embedder : String → List ℚ

/-- searchSparsePart is the sparse candidate retrieval of
HybridRetriever.search: self._sparse_search(query, k*3) if alpha < 1
else []. -/
def searchSparsePart (st : Retriever) (query : String) (k : Nat) (alpha : ℚ) :
    List (Doc × ℚ) :=
  if alpha < 1 then sparseSearch st.documents st.bm25 query (k * 3) else []

/-- searchDensePart is the dense candidate retrieval of
HybridRetriever.search: self._dense_search(query, k*3) if alpha > 0
else []. -/
def searchDensePart (st : Retriever) (query : String) (k : Nat) (alpha : ℚ) :
    Except String (List (Doc × ℚ)) :=
  if 0 < alpha then denseSearch st.documents st.dense (st.embedder query) (k * 3)
  else .ok []

/-- searchCandidates is the fusion stage of HybridRetriever.search:
combine both paths in the combined_scores dictionary, resolve ids back
to documents, stable-sort descending by combined score and keep the
top k*2 candidates for filtering and reranking. -/
def searchCandidates (st : Retriever) (query : String) (k : Nat) (alpha : ℚ) :
    Except String (List (Doc × ℚ)) :=
  match searchDensePart st query k alpha with
  | .error e => .error e
  | .ok denseResults =>
    let combined := combineScores (searchSparsePart st query k alpha) denseResults alpha
    match lookupCandidates st.documents combined with
    | .error e => .error e
    | .ok cands => .ok ((sortByScoreDesc cands).take (k * 2))

/-- search embeds HybridRetriever.search end to end: fusion, the
metadata filter (skipped for an absent or empty filters dictionary,
both falsy in Python), and the rerank-or-truncate tail. -/
def search (st : Retriever) (query : String) (k : Nat) (useReranking : Bool)
    (filters : Option (List (String × MVal))) (alpha : ℚ) :
    Except String (List (Doc × ℚ)) :=
  match searchCandidates st query k alpha with
  | .error e => .error e
  | .ok cands =>
    let filtered :=
      match filters with
      | some f => if f.isEmpty then Except.ok cands else applyFilters cands f
      | none => .ok cands
    match filtered with
    | .error e => .error e
    | .ok cands2 => .ok (finalStage st.reranker useReranking query cands2 k)

/-- dedupAppend is the citation accumulation loop of
AdvancedRAGSystem.retrieve: append a citation only when it has not
been seen yet. -/
def dedupAppend (citations : List String) : List String :=
  citations.foldl (fun acc c => if c ∈ acc then acc else acc ++ [c]) []

/-- assembleOutput embeds the output assembly of
AdvancedRAGSystem.retrieve on the final result list: empty triple for
no results, else the joined context parts (the float formatting of the
relevance prefix is abstracted as fmt), the first-occurrence
deduplicated citations, and the documents in rank order. -/
def assembleOutput (fmt : ℚ → String) (results : List (Doc × ℚ)) :
    String × List String × List Doc :=
  if results.isEmpty then ("", [], [])
  else
    let contextParts := results.map
      (fun p => "[Relevance: " ++ fmt p.2 ++ "]" ++ String.mk [Char.ofNat 10] ++ p.1.text)
    let citations := dedupAppend (results.map (fun p => getCitation p.1))
    (String.intercalate (String.mk ([Char.ofNat 10, Char.ofNat 10] ++ "---".data ++ [Char.ofNat 10, Char.ofNat 10])) contextParts,
      citations, results.map (fun p => p.1))

/-- retrieve embeds AdvancedRAGSystem.retrieve: delegate to search and
assemble context, citations and documents. -/
def retrieve (fmt : ℚ → String) (st : Retriever) (query : String) (k : Nat)
    (useReranking : Bool) (filters : Option (List (String × MVal))) (alpha : ℚ) :
    Except String (String × List String × List Doc) :=
  match search st query k useReranking filters alpha with
  | .error e => .error e
  | .ok results => .ok (assembleOutput fmt results)

/-- freshRetriever is the state of a freshly constructed engine with
zero ingested documents: empty corpus, no BM25 index, no dense index,
no ChromaDB collection. -/
def freshRetriever (reranker : Option (String → String → ℚ)) (embedder : String → List ℚ) :
    Retriever :=
  ⟨[], none, ⟨none, none⟩, reranker, embedder⟩

/-- CacheBlob models the single pickled snapshot rag_cache.pkl:
documents, BM25 state and an ISO timestamp. -/
structure CacheBlob where
  documents : List Doc
  bm25 : Option (List String → List ℚ)
  timestamp : String

/-- CacheFS models the cache directory as seen by load_cache: the blob
is absent, unreadable, or readable; the FAISS index file likewise. -/
structure CacheFS where
  blob : Option (Except String CacheBlob)
  faissFile : Option (Except String (List ℚ → Nat → List (Int × ℚ)))

/-- loadCache embeds HybridRetriever.load_cache: missing blob returns
False; an unreadable blob raises inside the try and returns False with
the state untouched; a readable blob restores documents and BM25, then
loads the FAISS index only when the library is available and the index
file exists; a failing read_index raises after the mutations and
returns False.  The Boolean result is what __init__ consults: False
triggers full re-ingestion. -/
def loadCache (faissAvail : Bool) (fs : CacheFS) (st : Retriever) : Retriever × Bool :=
  match fs.blob with
  | none => (st, false)
  | some (.error _) => (st, false)
  | some (.ok blob) =>
    let st1 : Retriever :=
      { st with documents := blob.documents, bm25 := blob.bm25 }
    if faissAvail then
      match fs.faissFile with
      | none => (st1, true)
      | some (.error _) => (st1, false)
      | some (.ok idx) =>
        ({ st1 with dense := { st1.dense with faissIndex := some idx } }, true)
    else (st1, true)

/-- dedupFirst is the specification-side order-preserving
de-duplication: keep the first occurrence of every string. -/
def dedupFirst : List String → List String
  | [] => []
  | c :: cs => c :: dedupFirst (cs.filter (fun x => x ≠ c))
termination_by l => l.length
decreasing_by
  simp only [List.length_cons]
  exact Nat.lt_succ_of_le (List.length_filter_le _ _)

/-- pathScoreOf reads the score a retrieval path assigned to a
document id, or 0 when the path did not return the document. -/
def pathScoreOf (results : List (Doc × ℚ)) (docId : String) : ℚ :=
  match results.find? (fun p => p.1.id == docId) with
  | some p => p.2
  | none => 0

/-- idsOf lists the document ids of a result list in order. -/
def idsOf (l : List (Doc × ℚ)) : List String := l.map (fun p => p.1.id)

/-- predHolds is the specification-side reading of one metadata filter
entry as the code implements it, elif fall-through included: a
"source" key demands an equal source string, a "min_score" key demands
a numeric bound not above the current score, and EVERY key (those two
included) additionally demands that the key, when present in the
document metadata, carries an equal value; a key absent from the
metadata demands nothing there. -/
def predHolds (d : Doc) (s : ℚ) (kv : String × MVal) : Prop :=
  (kv.1 = "source" → kv.2 = MVal.str d.source) ∧
  (kv.1 = "min_score" → ∃ q, kv.2 = MVal.num q ∧ ¬ s < q) ∧
  (∀ mv, d.metadata.lookup kv.1 = some mv → mv = kv.2)

/-- docM is a concrete document with empty metadata, used in the
filter counterexamples. -/
def docM : Doc := ⟨"m", "text m", "src.txt", none, 0, [], []⟩

/-- docSp is a concrete document for the sparse-search
counterexample. -/
def docSp : Doc := ⟨"sp", "text sp", "sp.txt", none, 0, [], []⟩

/-- bmSp is a concrete BM25 backend assigning the single corpus
document the strictly positive score 5. -/
def bmSp : Option (List String → List ℚ) := some (fun _ => [(5 : ℚ)])

/-- stW is a concrete retriever with an empty corpus and an empty
FAISS index, used to witness the fusion theorems. -/
def stW : Retriever := ⟨[], none, ⟨some (fun _ _ => []), none⟩, none, fun _ => []⟩

/-- docW is a concrete document stored in the cache blob of the
persistence counterexample. -/
def docW : Doc := ⟨"w", "text w", "w.txt", none, 0, [], [1]⟩

/-- blobW is a readable cache blob holding one document and a sparse
index. -/
def blobW : CacheBlob := ⟨[docW], some (fun _ => [(1 : ℚ)]), "2024-01-01T00:00:00"⟩

/-- fsW is a cache directory whose pickled blob is intact but whose
FAISS index file is missing. -/
def fsW : CacheFS := ⟨some (.ok blobW), none⟩

/-- docA, docB, docA2 and docC realize the rank-ordered citation
pattern [A, B, A, C]: docA and docA2 are distinct chunks of the same
source and share the citation string. -/
def docA : Doc := ⟨"a1", "first a", "a.txt", none, 0, [], []⟩

def docB : Doc := ⟨"b1", "first b", "b.txt", none, 0, [], []⟩

def docA2 : Doc := ⟨"a2", "second a", "a.txt", none, 1, [], []⟩

def docC : Doc := ⟨"c1", "first c", "c.txt", none, 0, [], []⟩

/-! Shared lemmas about the metadata filter. -/

theorem applyFilters_sublist :
    ∀ (cands : List (Doc × ℚ)) (fs : List (String × MVal)) (out : List (Doc × ℚ)),
      applyFilters cands fs = Except.ok out → out.Sublist cands := by
  intro cands
  induction cands with
  | nil =>
    intro fs out h
    simp only [applyFilters, Except.ok.injEq] at h
    subst h
    exact List.Sublist.refl []
  | cons hd tl ih =>
    obtain ⟨d, s⟩ := hd
    intro fs out h
    rw [applyFilters] at h
    cases hp : passFilter d s fs <;> rw [hp] at h
    · exact absurd h (by simp)
    case ok keep =>
      cases ht : applyFilters tl fs <;> rw [ht] at h
      · exact absurd h (by simp)
      case ok tail =>
        simp only [Except.ok.injEq] at h
        subst h
        cases keep with
        | true => simpa using List.Sublist.cons₂ (d, s) (ih fs tail ht)
        | false => simpa using List.Sublist.cons (d, s) (ih fs tail ht)

theorem metadataCheck_true_iff (d : Doc) (key : String) (v : MVal)
    (k : Except String Bool) :
    metadataCheck d key v k = Except.ok true ↔
      ((∀ mv, d.metadata.lookup key = some mv → mv = v) ∧ k = Except.ok true) := by
  unfold metadataCheck
  cases hmv : d.metadata.lookup key with
  | some mv =>
    show (if mv = v then k else Except.ok false) = Except.ok true ↔ _
    by_cases he : mv = v
    · rw [if_pos he]
      constructor
      · intro h
        refine ⟨?_, h⟩
        intro mv2 hmv2
        injection hmv2 with h2
        rw [← h2]
        exact he
      · exact And.right
    · rw [if_neg he]
      constructor
      · intro h
        exact absurd h (by simp)
      · intro h
        exact absurd (h.1 mv rfl) he
  | none =>
    constructor
    · intro h
      refine ⟨?_, h⟩
      intro mv2 hmv2
      exact absurd hmv2 (by simp)
    · exact And.right

theorem passFilter_true_iff (d : Doc) (s : ℚ) :
    ∀ fs, passFilter d s fs = Except.ok true ↔ ∀ kv ∈ fs, predHolds d s kv := by
  intro fs
  induction fs with
  | nil => simp [passFilter]
  | cons kv rest ih =>
    obtain ⟨key, v⟩ := kv
    rw [List.forall_mem_cons]
    by_cases hA : key = "source" ∧ v ≠ MVal.str d.source
    · have hstep : passFilter d s ((key, v) :: rest) = Except.ok false := by
        simp only [passFilter, if_pos hA]
      rw [hstep]
      constructor
      · intro h
        exact absurd h (by simp)
      · intro h
        exact absurd (h.1.1 hA.1) hA.2
    · by_cases hms : key = "min_score"
      · subst hms
        have hA1 : ¬ ("min_score" = "source" ∧ v ≠ MVal.str d.source) := hA
        cases v with
        | str x =>
          have hstep : passFilter d s (("min_score", MVal.str x) :: rest)
              = Except.error "TypeError" := by
            simp [passFilter, hA1]
          rw [hstep]
          constructor
          · intro h
            exact absurd h (by simp)
          · intro h
            obtain ⟨q, hq, _⟩ := h.1.2.1 rfl
            exact absurd hq (by simp)
        | num q =>
          by_cases hq : s < q
          · have hstep : passFilter d s (("min_score", MVal.num q) :: rest)
                = Except.ok false := by
              simp [passFilter, hA1, hq]
            rw [hstep]
            constructor
            · intro h
              exact absurd h (by simp)
            · intro h
              obtain ⟨q2, hq2, hlt⟩ := h.1.2.1 rfl
              simp only [MVal.num.injEq] at hq2
              exact (hlt (hq2 ▸ hq)).elim
          · have hstep : passFilter d s (("min_score", MVal.num q) :: rest)
                = metadataCheck d "min_score" (MVal.num q) (passFilter d s rest) := by
              simp [passFilter, hA1, hq]
            rw [hstep, metadataCheck_true_iff, ih]
            constructor
            · rintro ⟨hmeta, hrest⟩
              refine ⟨⟨?_, ?_, hmeta⟩, hrest⟩
              · intro hcontra
                have hss : ("min_score" : String) = "source" := hcontra
                exact absurd hss (by decide)
              · intro _
                exact ⟨q, rfl, hq⟩
            · rintro ⟨⟨_, _, hmeta⟩, hrest⟩
              exact ⟨hmeta, hrest⟩
      · have hsv : key = "source" → v = MVal.str d.source := by
          intro hk
          by_contra hv
          exact hA ⟨hk, hv⟩
        have hstep : passFilter d s ((key, v) :: rest)
            = metadataCheck d key v (passFilter d s rest) := by
          simp only [passFilter, if_neg hA, if_neg hms]
        rw [hstep, metadataCheck_true_iff, ih]
        constructor
        · rintro ⟨hmeta, hrest⟩
          exact ⟨⟨hsv, fun h => absurd h hms, hmeta⟩, hrest⟩
        · rintro ⟨⟨_, _, hmeta⟩, hrest⟩
          exact ⟨hmeta, hrest⟩

theorem applyFilters_mem :
    ∀ (cands : List (Doc × ℚ)) (fs : List (String × MVal)) (out : List (Doc × ℚ)),
      applyFilters cands fs = Except.ok out →
      ∀ p, p ∈ out ↔ (p ∈ cands ∧ passFilter p.1 p.2 fs = Except.ok true) := by
  intro cands
  induction cands with
  | nil =>
    intro fs out h p
    simp only [applyFilters, Except.ok.injEq] at h
    subst h
    simp
  | cons hd tl ih =>
    obtain ⟨d, s⟩ := hd
    intro fs out h p
    rw [applyFilters] at h
    cases hp : passFilter d s fs <;> rw [hp] at h
    · exact absurd h (by simp)
    case ok keep =>
      cases ht : applyFilters tl fs <;> rw [ht] at h
      · exact absurd h (by simp)
      case ok tail =>
        simp only [Except.ok.injEq] at h
        subst h
        have hmem := ih fs tail ht p
        cases keep with
        | true =>
          simp only [if_true, List.mem_cons]
          constructor
          · rintro (hpd | hpt)
            · subst hpd
              exact ⟨Or.inl rfl, hp⟩
            · obtain ⟨h1, h2⟩ := hmem.mp hpt
              exact ⟨Or.inr h1, h2⟩
          · rintro ⟨hpd | hpt, hpass⟩
            · subst hpd
              exact Or.inl rfl
            · exact Or.inr (hmem.mpr ⟨hpt, hpass⟩)
        | false =>
          simp only [if_false, List.mem_cons]
          constructor
          · intro hpt
            obtain ⟨h1, h2⟩ := hmem.mp hpt
            exact ⟨Or.inr h1, h2⟩
          · rintro ⟨hpd | hpt, hpass⟩
            · subst hpd
              rw [hp] at hpass
              exact absurd hpass (by simp)
            · exact hmem.mpr ⟨hpt, hpass⟩

/-! Shared lemmas about the stable descending sort. -/

theorem sortByScoreDesc_pairwise (l : List (Doc × ℚ)) :
    List.Pairwise scoreDescRel (sortByScoreDesc l) :=
  List.sorted_insertionSort scoreDescRel l

theorem sortByScoreDesc_perm (l : List (Doc × ℚ)) : (sortByScoreDesc l).Perm l :=
  List.perm_insertionSort scoreDescRel l

/-! Shared lemmas about the combined-scores dictionary. -/

theorem dictGet_nil (key : String) : dictGet [] key = none := rfl

theorem dictGet_set_eq (l : List (String × ℚ)) (key : String) (v : ℚ) :
    dictGet (dictSet l key v) key = some v := by
  induction l with
  | nil => simp [dictSet, dictGet]
  | cons p rest ih =>
    obtain ⟨k0, v0⟩ := p
    by_cases h : k0 = key
    · subst h
      simp [dictSet, dictGet]
    · simp only [dictSet, beq_iff_eq, h, if_false]
      simpa [dictGet, List.find?_cons, h] using ih

theorem dictGet_set_ne (l : List (String × ℚ)) (key key' : String) (v : ℚ)
    (h : key' ≠ key) : dictGet (dictSet l key v) key' = dictGet l key' := by
  induction l with
  | nil => simp [dictSet, dictGet, List.find?_cons, Ne.symm h]
  | cons p rest ih =>
    obtain ⟨k0, v0⟩ := p
    by_cases hk : k0 = key
    · subst hk
      simp [dictSet, dictGet, List.find?_cons, Ne.symm h]
    · by_cases hk' : k0 = key'
      · subst hk'
        simp [dictSet, dictGet, List.find?_cons, hk]
      · simp only [dictSet, beq_iff_eq, hk, if_false]
        simpa [dictGet, List.find?_cons, hk'] using ih

theorem dictSet_keys (l : List (String × ℚ)) (key : String) (v : ℚ) :
    (dictSet l key v).map Prod.fst =
      if key ∈ l.map Prod.fst then l.map Prod.fst else l.map Prod.fst ++ [key] := by
  induction l with
  | nil => simp [dictSet]
  | cons p rest ih =>
    obtain ⟨k0, v0⟩ := p
    by_cases h : k0 = key
    · subst h
      simp [dictSet]
    · simp only [dictSet, beq_iff_eq, h, if_false, List.map_cons, ih]
      by_cases hmem : key ∈ rest.map Prod.fst
      · simp [hmem, Ne.symm h]
      · simp [hmem, Ne.symm h]

theorem dictSet_keys_nodup (l : List (String × ℚ)) (key : String) (v : ℚ)
    (h : (l.map Prod.fst).Nodup) : ((dictSet l key v).map Prod.fst).Nodup := by
  rw [dictSet_keys]
  by_cases hmem : key ∈ l.map Prod.fst
  · simpa [hmem] using h
  · rw [if_neg hmem]
    refine List.Nodup.append h (List.nodup_singleton key) ?_
    intro a ha hamem
    rw [List.mem_singleton] at hamem
    exact hmem (hamem ▸ ha)

theorem dictGet_of_mem (l : List (String × ℚ)) (h : (l.map Prod.fst).Nodup) :
    ∀ e ∈ l, dictGet l e.1 = some e.2 := by
  induction l with
  | nil => simp
  | cons p rest ih =>
    obtain ⟨k0, v0⟩ := p
    simp only [List.map_cons, List.nodup_cons] at h
    obtain ⟨hk0, hrest⟩ := h
    intro e he
    rcases List.mem_cons.mp he with he0 | hemem
    · subst he0
      simp [dictGet, List.find?_cons]
    · have hne : k0 ≠ e.1 := by
        intro hcontra
        exact hk0 (hcontra ▸ List.mem_map_of_mem Prod.fst hemem)
      simpa [dictGet, List.find?_cons, hne] using ih hrest e hemem

theorem sparse_fold_get_notmem (alpha : ℚ) :
    ∀ (S : List (Doc × ℚ)) (acc : List (String × ℚ)) (key : String),
      (∀ p ∈ S, p.1.id ≠ key) →
      dictGet (S.foldl (sparseIns alpha) acc) key = dictGet acc key := by
  intro S
  induction S with
  | nil => simp
  | cons p rest ih =>
    intro acc key h
    simp only [List.foldl_cons]
    rw [ih _ key (fun q hq => h q (List.mem_cons_of_mem _ hq))]
    exact dictGet_set_ne _ _ _ _ (fun he => h p (List.mem_cons_self _ _) he.symm)

theorem sparse_fold_get (alpha : ℚ) :
    ∀ (S : List (Doc × ℚ)) (acc : List (String × ℚ)) (key : String),
      (S.map (fun p => p.1.id)).Nodup →
      dictGet (S.foldl (sparseIns alpha) acc) key =
        match S.find? (fun p => p.1.id == key) with
        | some p => some ((1 - alpha) * p.2)
        | none => dictGet acc key := by
  intro S
  induction S with
  | nil => simp
  | cons p rest ih =>
    intro acc key hnd
    simp only [List.map_cons, List.nodup_cons] at hnd
    obtain ⟨hp, hrest⟩ := hnd
    by_cases hk : p.1.id = key
    · subst hk
      have hnot : ∀ q ∈ rest, q.1.id ≠ p.1.id := by
        intro q hq he
        exact hp (by rw [← he]; exact List.mem_map_of_mem _ hq)
      simp only [List.foldl_cons]
      rw [sparse_fold_get_notmem alpha rest _ _ hnot]
      rw [List.find?_cons_of_pos _ (by simp)]
      simp [sparseIns, dictGet_set_eq]
    · simp only [List.foldl_cons]
      rw [ih _ key hrest]
      rw [List.find?_cons_of_neg _ (by simp [hk])]
      cases hf : rest.find? (fun q => q.1.id == key) with
      | some q => rfl
      | none => exact dictGet_set_ne _ _ _ _ (fun he => hk he.symm)

theorem dense_fold_get_notmem (alpha : ℚ) :
    ∀ (D : List (Doc × ℚ)) (acc : List (String × ℚ)) (key : String),
      (∀ p ∈ D, p.1.id ≠ key) →
      dictGet (D.foldl (denseIns alpha) acc) key = dictGet acc key := by
  intro D
  induction D with
  | nil => simp
  | cons p rest ih =>
    intro acc key h
    simp only [List.foldl_cons]
    rw [ih _ key (fun q hq => h q (List.mem_cons_of_mem _ hq))]
    have hne : key ≠ p.1.id := fun he => h p (List.mem_cons_self _ _) he.symm
    unfold denseIns
    cases dictGet acc p.1.id <;> simp [dictGet_set_ne _ _ _ _ hne]

theorem dense_fold_get (alpha : ℚ) :
    ∀ (D : List (Doc × ℚ)) (acc : List (String × ℚ)) (key : String),
      (D.map (fun p => p.1.id)).Nodup →
      dictGet (D.foldl (denseIns alpha) acc) key =
        match D.find? (fun p => p.1.id == key) with
        | some p => some ((dictGet acc key).getD 0 + alpha * p.2)
        | none => dictGet acc key := by
  intro D
  induction D with
  | nil => simp
  | cons p rest ih =>
    intro acc key hnd
    simp only [List.map_cons, List.nodup_cons] at hnd
    obtain ⟨hp, hrest⟩ := hnd
    by_cases hk : p.1.id = key
    · subst hk
      have hnot : ∀ q ∈ rest, q.1.id ≠ p.1.id := by
        intro q hq he
        exact hp (by rw [← he]; exact List.mem_map_of_mem _ hq)
      simp only [List.foldl_cons]
      rw [dense_fold_get_notmem alpha rest _ _ hnot]
      rw [List.find?_cons_of_pos _ (by simp)]
      unfold denseIns
      cases hg : dictGet acc p.1.id with
      | some v => simp [hg, dictGet_set_eq]
      | none => simp [hg, dictGet_set_eq, zero_add]
    · simp only [List.foldl_cons]
      rw [ih _ key hrest]
      have hstep : dictGet (denseIns alpha acc p) key = dictGet acc key := by
        have hne : key ≠ p.1.id := fun he => hk he.symm
        unfold denseIns
        cases dictGet acc p.1.id <;> simp [dictGet_set_ne _ _ _ _ hne]
      rw [List.find?_cons_of_neg _ (by simp [hk])]
      cases hf : rest.find? (fun q => q.1.id == key) with
      | some q => rw [hstep]
      | none => rw [hstep]

theorem sparse_fold_keys_nodup (alpha : ℚ) :
    ∀ (S : List (Doc × ℚ)) (acc : List (String × ℚ)),
      (acc.map Prod.fst).Nodup →
      ((S.foldl (sparseIns alpha) acc).map Prod.fst).Nodup := by
  intro S
  induction S with
  | nil => intro acc h; simpa using h
  | cons p rest ih =>
    intro acc h
    simp only [List.foldl_cons]
    exact ih _ (dictSet_keys_nodup _ _ _ h)

theorem dense_fold_keys_nodup (alpha : ℚ) :
    ∀ (D : List (Doc × ℚ)) (acc : List (String × ℚ)),
      (acc.map Prod.fst).Nodup →
      ((D.foldl (denseIns alpha) acc).map Prod.fst).Nodup := by
  intro D
  induction D with
  | nil => intro acc h; simpa using h
  | cons p rest ih =>
    intro acc h
    simp only [List.foldl_cons]
    refine ih _ ?_
    unfold denseIns
    cases dictGet acc p.1.id <;> exact dictSet_keys_nodup _ _ _ h

theorem combineScores_keys_nodup (S D : List (Doc × ℚ)) (alpha : ℚ) :
    ((combineScores S D alpha).map Prod.fst).Nodup := by
  unfold combineScores
  exact dense_fold_keys_nodup alpha D _ (sparse_fold_keys_nodup alpha S [] (by simp))

theorem combineScores_get (S D : List (Doc × ℚ)) (alpha : ℚ) (key : String)
    (hS : (S.map (fun p => p.1.id)).Nodup) (hD : (D.map (fun p => p.1.id)).Nodup) :
    dictGet (combineScores S D alpha) key =
      match S.find? (fun p => p.1.id == key), D.find? (fun p => p.1.id == key) with
      | some p, some q => some ((1 - alpha) * p.2 + alpha * q.2)
      | some p, none => some ((1 - alpha) * p.2)
      | none, some q => some (alpha * q.2)
      | none, none => none := by
  unfold combineScores
  rw [dense_fold_get alpha D _ key hD, sparse_fold_get alpha S [] key hS]
  cases hfS : S.find? (fun p => p.1.id == key) <;>
    cases hfD : D.find? (fun p => p.1.id == key) <;>
      simp [sparse_fold_get alpha S [] key hS, hfS, dictGet_nil, zero_add]

theorem combineScores_entry (S D : List (Doc × ℚ)) (alpha : ℚ)
    (hS : (S.map (fun p => p.1.id)).Nodup) (hD : (D.map (fun p => p.1.id)).Nodup) :
    ∀ e ∈ combineScores S D alpha,
      e.2 = (1 - alpha) * pathScoreOf S e.1 + alpha * pathScoreOf D e.1 := by
  intro e he
  have hget : dictGet (combineScores S D alpha) e.1 = some e.2 :=
    dictGet_of_mem _ (combineScores_keys_nodup S D alpha) e he
  rw [combineScores_get S D alpha e.1 hS hD] at hget
  unfold pathScoreOf
  cases hfS : S.find? (fun p => p.1.id == e.1) with
  | some p =>
    cases hfD : D.find? (fun p => p.1.id == e.1) with
    | some qq =>
      rw [hfS, hfD] at hget
      simp only [Option.some.injEq] at hget
      exact hget.symm
    | none =>
      rw [hfS, hfD] at hget
      simp only [Option.some.injEq] at hget
      show e.2 = (1 - alpha) * p.2 + alpha * 0
      rw [← hget]
      ring
  | none =>
    cases hfD : D.find? (fun p => p.1.id == e.1) with
    | some qq =>
      rw [hfS, hfD] at hget
      simp only [Option.some.injEq] at hget
      show e.2 = (1 - alpha) * 0 + alpha * qq.2
      rw [← hget]
      ring
    | none =>
      rw [hfS, hfD] at hget
      exact absurd hget (by simp)

/-! Shared lemmas about candidate resolution and the search stages. -/

theorem lookupCandidates_ids :
    ∀ (docs : List Doc) (entries : List (String × ℚ)) (out : List (Doc × ℚ)),
      lookupCandidates docs entries = Except.ok out →
      out.map (fun p => p.1.id) = entries.map Prod.fst := by
  intro docs entries
  induction entries with
  | nil =>
    intro out h
    simp only [lookupCandidates, Except.ok.injEq] at h
    subst h
    simp
  | cons e rest ih =>
    obtain ⟨key, score⟩ := e
    intro out h
    rw [lookupCandidates] at h
    cases hf : docs.find? (fun d => d.id == key) <;> rw [hf] at h
    · exact absurd h (by simp)
    case some d =>
      cases ht : lookupCandidates docs rest <;> rw [ht] at h
      · exact absurd h (by simp [Except.map])
      case ok tail =>
        simp only [Except.map, Except.ok.injEq] at h
        subst h
        have hid : d.id = key := by
          have := List.find?_some hf
          simpa using this
        simp [hid, ih tail ht]

theorem lookupCandidates_mem :
    ∀ (docs : List Doc) (entries : List (String × ℚ)) (out : List (Doc × ℚ)),
      lookupCandidates docs entries = Except.ok out →
      ∀ p ∈ out, ∃ e ∈ entries, p.1.id = e.1 ∧ p.2 = e.2 := by
  intro docs entries
  induction entries with
  | nil =>
    intro out h
    simp only [lookupCandidates, Except.ok.injEq] at h
    subst h
    simp
  | cons e rest ih =>
    obtain ⟨key, score⟩ := e
    intro out h
    rw [lookupCandidates] at h
    cases hf : docs.find? (fun d => d.id == key) <;> rw [hf] at h
    · exact absurd h (by simp)
    case some d =>
      cases ht : lookupCandidates docs rest <;> rw [ht] at h
      · exact absurd h (by simp [Except.map])
      case ok tail =>
        simp only [Except.map, Except.ok.injEq] at h
        subst h
        intro p hp
        rcases List.mem_cons.mp hp with hp0 | hpmem
        · subst hp0
          have hid : d.id = key := by
            have := List.find?_some hf
            simpa using this
          exact ⟨(key, score), List.mem_cons_self _ _, hid, rfl⟩
        · obtain ⟨e2, he2, h1, h2⟩ := ih tail ht p hpmem
          exact ⟨e2, List.mem_cons_of_mem _ he2, h1, h2⟩

theorem searchCandidates_spec (st : Retriever) (q : String) (k : Nat) (alpha : ℚ) :
    ∀ out, searchCandidates st q k alpha = Except.ok out →
      ∃ D cands, searchDensePart st q k alpha = Except.ok D ∧
        lookupCandidates st.documents
          (combineScores (searchSparsePart st q k alpha) D alpha) = Except.ok cands ∧
        out = (sortByScoreDesc cands).take (k * 2) := by
  intro out h
  unfold searchCandidates at h
  cases hD : searchDensePart st q k alpha <;> rw [hD] at h <;> dsimp only at h
  · exact absurd h (by simp)
  case ok D =>
    cases hL : lookupCandidates st.documents
        (combineScores (searchSparsePart st q k alpha) D alpha) <;>
      rw [hL] at h <;> dsimp only at h
    · exact absurd h (by simp)
    case ok cands =>
      simp only [Except.ok.injEq] at h
      exact ⟨D, cands, rfl, hL, h.symm⟩

/-! Shared lemmas about duplicate-freedom through the stages. -/

theorem ids_nodup_take (cands : List (Doc × ℚ)) (n : Nat)
    (h : (cands.map (fun p => p.1.id)).Nodup) :
    ((cands.take n).map (fun p => p.1.id)).Nodup := by
  rw [List.map_take]
  exact (List.take_sublist _ _).nodup h

theorem ids_nodup_sort (cands : List (Doc × ℚ))
    (h : (cands.map (fun p => p.1.id)).Nodup) :
    ((sortByScoreDesc cands).map (fun p => p.1.id)).Nodup :=
  ((sortByScoreDesc_perm cands).map _).nodup_iff.mpr h

theorem ids_nodup_rerank (f : String → String → ℚ) (q : String)
    (cands : List (Doc × ℚ)) (k : Nat)
    (h : (cands.map (fun p => p.1.id)).Nodup) :
    ((rerankStage f q cands k).map (fun p => p.1.id)).Nodup := by
  unfold rerankStage
  apply ids_nodup_take
  apply ids_nodup_sort
  have hmapids :
      ((cands.map (fun p => (p.1, rerankScore p.2 (f q p.1.text)))).map
        (fun p => p.1.id)) = cands.map (fun p => p.1.id) := by
    simp [List.map_map, Function.comp]
  rw [hmapids]
  exact h

theorem docs_nodup_of_ids (l : List (Doc × ℚ))
    (h : (l.map (fun p => p.1.id)).Nodup) : (l.map (fun p => p.1)).Nodup := by
  have hrw : l.map (fun p => p.1.id) = (l.map (fun p => p.1)).map Doc.id := by
    simp [List.map_map, Function.comp]
  rw [hrw] at h
  exact h.of_map

theorem searchCandidates_ids_nodup (st : Retriever) (q : String) (k : Nat) (alpha : ℚ) :
    ∀ out, searchCandidates st q k alpha = Except.ok out →
      (out.map (fun p => p.1.id)).Nodup := by
  intro out hout
  obtain ⟨D, cands, hD, hL, hEq⟩ := searchCandidates_spec st q k alpha out hout
  subst hEq
  have hkeys := combineScores_keys_nodup (searchSparsePart st q k alpha) D alpha
  have hids := lookupCandidates_ids st.documents _ cands hL
  have hnodC : (cands.map (fun p => p.1.id)).Nodup := by
    rw [hids]
    exact hkeys
  exact ids_nodup_take _ _ (ids_nodup_sort _ hnodC)

theorem finalStage_ids_nodup (rr : Option (String → String → ℚ)) (useR : Bool)
    (q : String) (cands : List (Doc × ℚ)) (k : Nat)
    (h : (cands.map (fun p => p.1.id)).Nodup) :
    ((finalStage rr useR q cands k).map (fun p => p.1.id)).Nodup := by
  cases useR with
  | false => exact ids_nodup_take cands k h
  | true =>
    cases rr with
    | none => exact ids_nodup_take cands k h
    | some f =>
      show ((if cands.isEmpty then cands.take k else rerankStage f q cands k).map
        (fun p => p.1.id)).Nodup
      by_cases hie : cands.isEmpty
      · rw [if_pos hie]
        exact ids_nodup_take cands k h
      · rw [if_neg hie]
        exact ids_nodup_rerank f q cands k h

/-! Shared lemmas about the rerank stage. -/

theorem rerankStage_mem (f : String → String → ℚ) (q : String)
    (cands : List (Doc × ℚ)) (k : Nat) :
    ∀ p ∈ rerankStage f q cands k, ∃ c ∈ cands, p.1 = c.1 ∧
      p.2 = 3/10 * ((c.2 + 1) / 2) + 7/10 * ((f q c.1.text + 1) / 2) := by
  intro p hp
  unfold rerankStage at hp
  have hp2 := (List.take_sublist _ _).subset hp
  have hp3 := (sortByScoreDesc_perm _).subset hp2
  obtain ⟨c, hc, hce⟩ := List.mem_map.mp hp3
  refine ⟨c, hc, ?_, ?_⟩
  · rw [← hce]
  · rw [← hce]
    rfl

/-- Claim C3, counterexample: the filter map has the unknown key
"topic" which is absent from the metadata of docM, and yet docM is
kept, not excluded. -/
theorem applyFilters_keeps_doc_without_key :
    applyFilters [(docM, (1 : ℚ))] [("topic", MVal.str "x")] = Except.ok [(docM, 1)] ∧
    docM.metadata.lookup "topic" = none := ⟨rfl, rfl⟩

/-- Claim C3 (amended): the metadata filter keeps a document exactly
when it satisfies every supplied predicate, where an entry excludes
when its key is "source" and the source differs, when its key is
"min_score" and the score is below the bound, or when the key (any
key, those two included, via the elif fall-through) is present in the
document metadata with a different value; a document whose metadata
does not contain the key satisfies the metadata part vacuously, so
unknown absent keys never exclude. -/
theorem applyFilters_keep_characterization :
    ∀ (cands : List (Doc × ℚ)) (fs : List (String × MVal)) (out : List (Doc × ℚ)),
      applyFilters cands fs = Except.ok out →
      ∀ p, p ∈ out ↔ (p ∈ cands ∧ ∀ kv ∈ fs, predHolds p.1 p.2 kv) := by
  intro cands fs out h p
  rw [applyFilters_mem cands fs out h p, passFilter_true_iff]

/-- Claim C3, witness: a document with matching metadata passes a
two-predicate filter. -/
theorem applyFilters_keep_characterization_witness :
    (applyFilters [(docM, (1 : ℚ))] [("source", MVal.str "src.txt")]
      = Except.ok [(docM, 1)]) ∧
    ((docM, (1 : ℚ)) ∈ [(docM, (1 : ℚ))] ∧
      ∀ kv ∈ [("source", MVal.str "src.txt")], predHolds docM 1 kv) :=
  ⟨rfl, (applyFilters_keep_characterization [(docM, 1)] [("source", MVal.str "src.txt")]
    [(docM, 1)] rfl (docM, 1)).mp (by simp)⟩

/-- Claim C10: the metadata filter only removes entries: every
successful run returns a sublist of its input, so each surviving
(document, score) pair is unmodified and survivors keep their input
order. -/
theorem applyFilters_is_sublist :
    ∀ (cands : List (Doc × ℚ)) (fs : List (String × MVal)) (out : List (Doc × ℚ)),
      applyFilters cands fs = Except.ok out → out.Sublist cands :=
  fun cands fs out h => applyFilters_sublist cands fs out h

/-- Claim C10, witness: the empty filter map returns the whole input,
a sublist of itself. -/
theorem applyFilters_is_sublist_witness :
    (applyFilters [(docM, (1 : ℚ))] [] = Except.ok [(docM, 1)]) ∧
    List.Sublist [(docM, (1 : ℚ))] [(docM, 1)] :=
  ⟨rfl, applyFilters_is_sublist [(docM, 1)] [] [(docM, 1)] rfl⟩

/-- Claim C1: for k at least 1 and alpha in [0,1], the fusion stage of
search requests k*3 candidates from each path, skipping the sparse
path exactly when alpha = 1 and the dense path exactly when alpha = 0;
when both paths return id-distinct results, every fused candidate
carries the combined score (1-alpha)*sparse + alpha*dense (a document
in only one path contributes only that term, the other being 0), and
the fused list is sorted descending by combined score and truncated to
at most k*2 entries before filtering and reranking. -/
theorem search_fusion_contract (st : Retriever) (q : String) (k : Nat) (alpha : ℚ)
    (hk : 1 ≤ k) (h0 : 0 ≤ alpha) (h1 : alpha ≤ 1) :
    (alpha = 1 → searchSparsePart st q k alpha = []) ∧
    (alpha ≠ 1 →
      searchSparsePart st q k alpha = sparseSearch st.documents st.bm25 q (k * 3)) ∧
    (alpha = 0 → searchDensePart st q k alpha = Except.ok []) ∧
    (alpha ≠ 0 → searchDensePart st q k alpha
      = denseSearch st.documents st.dense (st.embedder q) (k * 3)) ∧
    (∀ D, searchDensePart st q k alpha = Except.ok D →
      ((searchSparsePart st q k alpha).map (fun p => p.1.id)).Nodup →
      (D.map (fun p => p.1.id)).Nodup →
      ∀ out, searchCandidates st q k alpha = Except.ok out →
        out.length ≤ k * 2 ∧ List.Pairwise scoreDescRel out ∧
        ∀ p ∈ out,
          p.2 = (1 - alpha) * pathScoreOf (searchSparsePart st q k alpha) p.1.id
            + alpha * pathScoreOf D p.1.id) := by
  refine ⟨?_, ?_, ?_, ?_, ?_⟩
  · intro h
    subst h
    simp [searchSparsePart]
  · intro h
    have hlt : alpha < 1 := lt_of_le_of_ne h1 h
    simp [searchSparsePart, hlt]
  · intro h
    subst h
    simp [searchDensePart]
  · intro h
    have hlt : 0 < alpha := lt_of_le_of_ne h0 (Ne.symm h)
    simp [searchDensePart, hlt]
  · intro D hD hS hDn out hout
    obtain ⟨D2, cands, hD2, hL, hEq⟩ := searchCandidates_spec st q k alpha out hout
    rw [hD] at hD2
    simp only [Except.ok.injEq] at hD2
    subst hD2
    subst hEq
    refine ⟨List.length_take_le _ _, ?_, ?_⟩
    · exact List.Pairwise.sublist (List.take_sublist _ _) (sortByScoreDesc_pairwise cands)
    · intro p hp
      have hp2 := (List.take_sublist _ _).subset hp
      have hp3 := (sortByScoreDesc_perm cands).subset hp2
      obtain ⟨e, he, h1e, h2e⟩ := lookupCandidates_mem st.documents _ cands hL p hp3
      rw [h2e, h1e]
      exact combineScores_entry _ _ alpha hS hDn e he

/-- Claim C1, witness: the contract instantiated at an empty corpus
with alpha = 1 and k = 1. -/
theorem search_fusion_contract_witness :
    (1 ≤ 1) ∧ ((0 : ℚ) ≤ 1) ∧ ((1 : ℚ) ≤ 1) ∧
      (([] : List (Doc × ℚ)).length ≤ 1 * 2) :=
  ⟨le_refl 1, by decide, by decide,
    ((search_fusion_contract stW "q" 1 1 (le_refl 1) (by decide) (by decide)).2.2.2.2
      [] rfl (by decide) (by decide) [] rfl).1⟩

/-- Claim C5: with reranking enabled and a reranker present, every
surviving candidate is rescored to
0.3*(retrieval+1)/2 + 0.7*(rerank+1)/2 with no clamping, the list is
re-sorted descending by that final score and truncated to k; with
reranking disabled or no reranker, the stage truncates the fused
ranking to the first k candidates unchanged; in all cases the result
has at most k entries. -/
theorem rerank_final_contract (rrOpt : Option (String → String → ℚ))
    (rr : String → String → ℚ) (useR : Bool) (q : String)
    (cands : List (Doc × ℚ)) (k : Nat) :
    (∀ p ∈ rerankStage rr q cands k, ∃ c ∈ cands, p.1 = c.1 ∧
        p.2 = 3/10 * ((c.2 + 1) / 2) + 7/10 * ((rr q c.1.text + 1) / 2)) ∧
    List.Pairwise scoreDescRel (rerankStage rr q cands k) ∧
    (cands ≠ [] → finalStage (some rr) true q cands k = rerankStage rr q cands k) ∧
    (useR = false ∨ rrOpt = none → finalStage rrOpt useR q cands k = cands.take k) ∧
    (finalStage rrOpt useR q cands k).length ≤ k := by
  refine ⟨rerankStage_mem rr q cands k, ?_, ?_, ?_, ?_⟩
  · exact List.Pairwise.sublist (List.take_sublist _ _) (sortByScoreDesc_pairwise _)
  · intro hne
    have hie : cands.isEmpty = false := by
      cases cands with
      | nil => exact absurd rfl hne
      | cons a l => rfl
    show (if cands.isEmpty then cands.take k else rerankStage rr q cands k)
      = rerankStage rr q cands k
    rw [hie]
    rfl
  · intro h
    rcases h with h | h
    · subst h
      cases rrOpt <;> rfl
    · subst h
      cases useR <;> rfl
  · cases useR with
    | false =>
      cases rrOpt <;> exact List.length_take_le _ _
    | true =>
      cases rrOpt with
      | none => exact List.length_take_le _ _
      | some f =>
        show (if cands.isEmpty then cands.take k else rerankStage f q cands k).length ≤ k
        by_cases hie : cands.isEmpty
        · rw [if_pos hie]
          exact List.length_take_le _ _
        · rw [if_neg hie]
          exact List.length_take_le _ _

/-- Claim C5, witness: with reranking disabled the stage is a plain
truncation and its length is bounded by k. -/
theorem rerank_final_contract_witness :
    finalStage none false "q" [(docM, (1 : ℚ))] 1 = [(docM, (1 : ℚ))].take 1 ∧
    (finalStage none false "q" [(docM, (1 : ℚ))] 1).length ≤ 1 :=
  ⟨(rerank_final_contract none (fun _ _ => 0) false "q" [(docM, 1)] 1).2.2.2.1
      (Or.inl rfl),
    (rerank_final_contract none (fun _ _ => 0) false "q" [(docM, 1)] 1).2.2.2.2⟩

/-- Claim C9: when the corpus documents have pairwise-distinct ids,
every successful search returns each document at most once, because
sparse and dense contributions are merged in a dictionary keyed by
document id. -/
theorem search_no_duplicate_docs (st : Retriever) (q : String) (k : Nat)
    (useR : Bool) (filters : Option (List (String × MVal))) (alpha : ℚ)
    (hcorp : (st.documents.map (fun d => d.id)).Nodup) :
    ∀ out, search st q k useR filters alpha = Except.ok out →
      (out.map (fun p => p.1.id)).Nodup ∧ (out.map (fun p => p.1)).Nodup := by
  intro out hout
  unfold search at hout
  cases hC : searchCandidates st q k alpha <;> rw [hC] at hout <;> dsimp only at hout
  · exact absurd hout (by simp)
  case ok cands =>
    have hnod := searchCandidates_ids_nodup st q k alpha cands hC
    have hmain : ∀ cands2, (cands2.map (fun p => p.1.id)).Nodup →
        out = finalStage st.reranker useR q cands2 k →
        (out.map (fun p => p.1.id)).Nodup ∧ (out.map (fun p => p.1)).Nodup := by
      intro cands2 hnod2 hEq
      subst hEq
      have hids := finalStage_ids_nodup st.reranker useR q cands2 k hnod2
      exact ⟨hids, docs_nodup_of_ids _ hids⟩
    cases filters with
    | none =>
      dsimp only at hout
      simp only [Except.ok.injEq] at hout
      exact hmain cands hnod hout.symm
    | some f =>
      dsimp only at hout
      by_cases hfe : f.isEmpty
      · rw [if_pos hfe] at hout
        dsimp only at hout
        simp only [Except.ok.injEq] at hout
        exact hmain cands hnod hout.symm
      · rw [if_neg hfe] at hout
        cases hA : applyFilters cands f <;> rw [hA] at hout <;> dsimp only at hout
        · exact absurd hout (by simp)
        next cands2 =>
          simp only [Except.ok.injEq] at hout
          have hsub : (cands2.map (fun p => p.1.id)).Sublist
              (cands.map (fun p => p.1.id)) :=
            (applyFilters_sublist cands f cands2 hA).map _
          exact hmain cands2 (hsub.nodup hnod) hout.symm

/-- Claim C9, witness: a search on the empty corpus succeeds with an
empty, trivially duplicate-free result. -/
theorem search_no_duplicate_docs_witness :
    (stW.documents.map (fun d => d.id)).Nodup ∧
    (([] : List (Doc × ℚ)).map (fun p => p.1.id)).Nodup :=
  ⟨by decide,
    (search_no_duplicate_docs stW "q" 1 true none 1 (by decide) [] rfl).1⟩

/-! Shared lemmas about citation de-duplication. -/

theorem dedup_foldl_eq :
    ∀ (l acc : List String),
      l.foldl (fun acc c => if c ∈ acc then acc else acc ++ [c]) acc
        = acc ++ dedupFirst (l.filter (fun x => x ∉ acc)) := by
  intro l
  induction l with
  | nil => intro acc; simp [dedupFirst]
  | cons c cs ih =>
    intro acc
    by_cases hc : c ∈ acc
    · rw [List.foldl_cons, if_pos hc, ih]
      congr 2
      simp [List.filter_cons, hc]
    · rw [List.foldl_cons, if_neg hc, ih, List.append_assoc]
      congr 1
      have hfil : (c :: cs).filter (fun x => decide (x ∉ acc))
          = c :: cs.filter (fun x => decide (x ∉ acc)) := by
        simp [List.filter_cons, hc]
      rw [hfil, dedupFirst, List.singleton_append]
      congr 1
      rw [List.filter_filter]
      congr 1
      apply List.filter_congr
      intro x hx
      by_cases hxc : x = c
      · subst hxc
        simp [List.mem_append]
      · by_cases hxa : x ∈ acc
        · simp [List.mem_append, hxc, hxa]
        · simp [List.mem_append, hxc, hxa]

theorem dedupFirst_subset_aux :
    ∀ (n : Nat) (l : List String), l.length ≤ n → ∀ x ∈ dedupFirst l, x ∈ l := by
  intro n
  induction n with
  | zero =>
    intro l hl x hx
    cases l with
    | nil => simpa [dedupFirst] using hx
    | cons c cs => simp at hl
  | succ n ih =>
    intro l hl x hx
    cases l with
    | nil => simpa [dedupFirst] using hx
    | cons c cs =>
      rw [dedupFirst] at hx
      rcases List.mem_cons.mp hx with h | h
      · simp [h]
      · have hlen : (cs.filter (fun y => y ≠ c)).length ≤ n := by
          have h1 := List.length_filter_le (fun y => decide (y ≠ c)) cs
          simp only [List.length_cons] at hl
          omega
        exact List.mem_cons_of_mem _
          (List.mem_of_mem_filter (ih (cs.filter (fun y => y ≠ c)) hlen x h))

theorem dedupFirst_subset (l : List String) : ∀ x ∈ dedupFirst l, x ∈ l :=
  dedupFirst_subset_aux l.length l (le_refl _)

theorem dedupFirst_nodup_aux :
    ∀ (n : Nat) (l : List String), l.length ≤ n → (dedupFirst l).Nodup := by
  intro n
  induction n with
  | zero =>
    intro l hl
    cases l with
    | nil => simp [dedupFirst]
    | cons c cs => simp at hl
  | succ n ih =>
    intro l hl
    cases l with
    | nil => simp [dedupFirst]
    | cons c cs =>
      rw [dedupFirst]
      have hlen : (cs.filter (fun y => y ≠ c)).length ≤ n := by
        have h1 := List.length_filter_le (fun y => decide (y ≠ c)) cs
        simp only [List.length_cons] at hl
        omega
      refine List.nodup_cons.mpr ⟨?_, ih _ hlen⟩
      intro hmem
      have := dedupFirst_subset _ c hmem
      simp at this

theorem dedupFirst_nodup (l : List String) : (dedupFirst l).Nodup :=
  dedupFirst_nodup_aux l.length l (le_refl _)

theorem assembleOutput_citations (fmt : ℚ → String) (rs : List (Doc × ℚ)) :
    (assembleOutput fmt rs).2.1 = dedupFirst (rs.map (fun p => getCitation p.1)) := by
  unfold assembleOutput
  by_cases hre : rs.isEmpty
  · rw [if_pos hre]
    have hnil : rs = [] := List.isEmpty_iff.mp hre
    subst hnil
    simp [dedupFirst]
  · rw [if_neg hre]
    show dedupAppend (rs.map (fun p => getCitation p.1)) = _
    unfold dedupAppend
    rw [dedup_foldl_eq, List.nil_append]
    congr 1
    have : ∀ x ∈ rs.map (fun p => getCitation p.1),
        (decide (x ∉ ([] : List String))) = true := by
      intro x hx
      simp
    calc (rs.map (fun p => getCitation p.1)).filter (fun x => decide (x ∉ ([] : List String)))
        = (rs.map (fun p => getCitation p.1)).filter (fun x => true) :=
          List.filter_congr this
      _ = rs.map (fun p => getCitation p.1) := List.filter_true _

/-- Claim C7: the citation list of the assembled output is exactly the
order-preserving first-occurrence de-duplication of the per-document
citation strings of the final ranked results, hence duplicate-free;
in particular four ranked documents with citations [A, B, A, C] yield
exactly [A, B, C]. -/
theorem retrieve_citations_dedup (fmt : ℚ → String) (results : List (Doc × ℚ)) :
    (assembleOutput fmt results).2.1
      = dedupFirst (results.map (fun p => getCitation p.1)) ∧
    (assembleOutput fmt results).2.1.Nodup ∧
    (assembleOutput fmt [(docA, (1 : ℚ)), (docB, 1), (docA2, 1), (docC, 1)]).2.1
      = ["[a]", "[b]", "[c]"] := by
  refine ⟨assembleOutput_citations fmt results, ?_, ?_⟩
  · rw [assembleOutput_citations fmt results]
    exact dedupFirst_nodup _
  · rfl

/-! Shared lemmas about sparse search. -/

theorem pyTakeLast_length_le (xs : List α) (k : Nat) (hk : k ≠ 0) :
    (pyTakeLast xs k).length ≤ k := by
  unfold pyTakeLast
  rw [if_neg hk]
  simp only [List.length_drop]
  omega

theorem pyTakeLast_sublist (xs : List α) (k : Nat) : (pyTakeLast xs k).Sublist xs := by
  unfold pyTakeLast
  by_cases hk : k = 0
  · rw [if_pos hk]
  · rw [if_neg hk]
    exact List.drop_sublist _ _

theorem argsortAsc_sorted (scores : List ℚ) :
    List.Pairwise (fun i j => scores.getD i 0 ≤ scores.getD j 0) (argsortAsc scores) := by
  unfold argsortAsc
  haveI : IsTotal Nat (fun i j => scores.getD i 0 ≤ scores.getD j 0) :=
    ⟨fun _ _ => le_total _ _⟩
  haveI : IsTrans Nat (fun i j => scores.getD i 0 ≤ scores.getD j 0) :=
    ⟨fun _ _ _ h1 h2 => le_trans h1 h2⟩
  exact List.sorted_insertionSort _ _

/-- Claim C8, counterexample: with k = 0 the numpy slice [-0:] selects
every index, so sparse search returns all positive-score documents
instead of at most 0. -/
theorem sparseSearch_k_zero_counterexample :
    sparseSearch [docSp] bmSp "q" 0 = [(docSp, 5)] ∧
    ¬ ((sparseSearch [docSp] bmSp "q" 0).length ≤ 0) := ⟨rfl, by decide⟩

/-- Claim C8 (amended): for every k at least 1, sparse search returns
at most k documents, all with strictly positive score, sorted
descending by score; with the BM25 backend absent it returns the empty
list (no failure is possible, the embedding is total); and the result
depends on the query only through lowercase whitespace tokenization.
For k = 0 the Python slice scores[-0:] selects the whole array, so all
positive-score documents are returned. -/
theorem sparseSearch_contract (documents : List Doc)
    (b : Option (List String → List ℚ)) (query : String) (k : Nat) (hk : 1 ≤ k) :
    (sparseSearch documents none query k = []) ∧
    (sparseSearch documents b query k).length ≤ k ∧
    (∀ p ∈ sparseSearch documents b query k, 0 < p.2) ∧
    List.Pairwise scoreDescRel (sparseSearch documents b query k) ∧
    (∀ q2, pyTokenize query = pyTokenize q2 →
      sparseSearch documents b query k = sparseSearch documents b q2 k) := by
  refine ⟨rfl, ?_, ?_, ?_, ?_⟩
  · cases b with
    | none => simp [sparseSearch]
    | some f =>
      show ((((pyTakeLast (argsortAsc (f (pyTokenize query))) k).reverse.filter
        (fun idx => 0 < (f (pyTokenize query)).getD idx 0)).map _).length ≤ k)
      rw [List.length_map]
      calc ((pyTakeLast (argsortAsc (f (pyTokenize query))) k).reverse.filter
            (fun idx => decide (0 < (f (pyTokenize query)).getD idx 0))).length
          ≤ (pyTakeLast (argsortAsc (f (pyTokenize query))) k).reverse.length :=
            List.length_filter_le _ _
        _ = (pyTakeLast (argsortAsc (f (pyTokenize query))) k).length :=
            List.length_reverse _
        _ ≤ k := pyTakeLast_length_le _ _ (by omega)
  · cases b with
    | none => simp [sparseSearch]
    | some f =>
      intro p hp
      obtain ⟨idx, hidx, hpe⟩ := List.mem_map.mp hp
      have hpos := List.of_mem_filter hidx
      rw [← hpe]
      simpa using hpos
  · cases b with
    | none => simp [sparseSearch]
    | some f =>
      apply List.pairwise_map.mpr
      apply List.Pairwise.sublist (List.filter_sublist _)
      apply List.pairwise_reverse.mpr
      exact List.Pairwise.sublist (pyTakeLast_sublist _ _) (argsortAsc_sorted _)
  · intro q2 h
    cases b with
    | none => rfl
    | some f =>
      show sparseSearch documents (some f) query k = sparseSearch documents (some f) q2 k
      unfold sparseSearch
      rw [h]

/-- Claim C8, witness: the contract at k = 1 on a one-document corpus
with a positive backend score. -/
theorem sparseSearch_contract_witness :
    (1 ≤ 1) ∧ (sparseSearch [docSp] bmSp "q" 1).length ≤ 1 :=
  ⟨le_refl 1, (sparseSearch_contract [docSp] bmSp "q" 1 (le_refl 1)).2.1⟩

/-- Claim C2: on a freshly constructed engine with zero ingested
documents and any alpha > 0 (the default is 0.7), retrieve does not
return the empty triple: the dense fallback builds the empty embedding
matrix np.array([]) of shape (0,), and np.dot raises ValueError, which
propagates out of retrieve.  Only alpha = 0 returns ("", [], []). -/
theorem retrieve_empty_corpus_raises (fmt : ℚ → String)
    (rr : Option (String → String → ℚ)) (emb : String → List ℚ) (q : String)
    (k : Nat) (useR : Bool) (filters : Option (List (String × MVal))) (alpha : ℚ)
    (halpha : 0 < alpha) :
    retrieve fmt (freshRetriever rr emb) q k useR filters alpha
      = Except.error "ValueError" := by
  have hD : searchDensePart (freshRetriever rr emb) q k alpha
      = Except.error "ValueError" := by
    unfold searchDensePart
    rw [if_pos halpha]
    rfl
  unfold retrieve search searchCandidates
  rw [hD]

/-- Claim C2, witness: the failure evaluated at alpha = 1 with the
default arguments. -/
theorem retrieve_empty_corpus_raises_witness :
    ((0 : ℚ) < 1) ∧
    retrieve (fun _ => "") (freshRetriever none (fun _ => [])) "q" 5 true none 1
      = Except.error "ValueError" :=
  ⟨by decide,
    retrieve_empty_corpus_raises (fun _ => "") none (fun _ => []) "q" 5 true none 1
      (by decide)⟩

/-- Claim C4: on a five-sentence input with chunk size 20, the second
chunk re-seeds with only the last TWO sentences of the closed chunk
("Cccc." and "Dddd."), not three: current_chunk.split(".") ends with
an empty piece that consumes one of the three slots of the [-3:]
slice.  The re-seed the claim describes, the last three sentences
"Bbbb. Cccc. Dddd." followed by the new sentence, does not occur. -/
theorem chunkText_two_sentence_overlap :
    chunkText 20 "Aaaa. Bbbb. Cccc. Dddd. Eeee."
      = ["Aaaa. Bbbb. Cccc. Dddd.", "Cccc. Dddd. Eeee.."] ∧
    (chunkText 20 "Aaaa. Bbbb. Cccc. Dddd. Eeee.").getD 1 ""
      ≠ "Bbbb. Cccc. Dddd. Eeee.." := ⟨rfl, by decide⟩

/-- Claim C6, counterexample: with the pickled blob intact and the
FAISS index file missing, load_cache returns True with documents and
the sparse index restored from the blob while the dense index stays
absent, so __init__ skips re-ingestion. -/
theorem loadCache_partial_restore :
    (loadCache true fsW (freshRetriever none (fun _ => []))).2 = true ∧
    (loadCache true fsW (freshRetriever none (fun _ => []))).1.documents = [docW] ∧
    (loadCache true fsW (freshRetriever none (fun _ => []))).1.bm25.isSome = true ∧
    (loadCache true fsW (freshRetriever none (fun _ => []))).1.dense.faissIndex
      = none :=
  ⟨rfl, rfl, rfl, rfl⟩

/-- Claim C6 (amended): a missing or unreadable blob makes load_cache
return False with the state untouched, and an unreadable dense-index
file also returns False (after the blob mutations), so every load
failure is caught and __init__ re-ingests; but the two artifacts are
not loaded together: a readable blob with a missing dense-index file
returns True with documents and sparse index restored while the dense
index stays absent. -/
theorem loadCache_characterization (fa : Bool) (fs : CacheFS) (st : Retriever) :
    (fs.blob = none → loadCache fa fs st = (st, false)) ∧
    (∀ e, fs.blob = some (Except.error e) → loadCache fa fs st = (st, false)) ∧
    (∀ blob, fs.blob = some (Except.ok blob) → fa = true → fs.faissFile = none →
      loadCache fa fs st
        = ({ st with documents := blob.documents, bm25 := blob.bm25 }, true)) ∧
    (∀ blob e, fs.blob = some (Except.ok blob) → fa = true →
      fs.faissFile = some (Except.error e) →
      loadCache fa fs st
        = ({ st with documents := blob.documents, bm25 := blob.bm25 }, false)) ∧
    ((loadCache fa fs st).2 = true →
      ∃ blob, fs.blob = some (Except.ok blob) ∧
        (loadCache fa fs st).1.documents = blob.documents ∧
        (loadCache fa fs st).1.bm25 = blob.bm25) := by
  refine ⟨?_, ?_, ?_, ?_, ?_⟩
  · intro h
    unfold loadCache
    rw [h]
  · intro e h
    unfold loadCache
    rw [h]
  · intro blob hb hfa hff
    subst hfa
    unfold loadCache
    rw [hb, hff]
    rfl
  · intro blob e hb hfa hff
    subst hfa
    unfold loadCache
    rw [hb, hff]
    rfl
  · intro hsucc
    unfold loadCache at hsucc ⊢
    cases hb : fs.blob with
    | none =>
      rw [hb] at hsucc
      exact absurd hsucc (by simp)
    | some x =>
      cases x with
      | error e =>
        rw [hb] at hsucc
        exact absurd hsucc (by simp)
      | ok blob =>
        refine ⟨blob, rfl, ?_⟩
        rw [hb] at hsucc
        cases fa with
        | false => exact ⟨rfl, rfl⟩
        | true =>
          cases hff : fs.faissFile with
          | none => exact ⟨rfl, rfl⟩
          | some y =>
            cases y with
            | error e =>
              rw [hff] at hsucc
              exact absurd hsucc (by simp)
            | ok idx => exact ⟨rfl, rfl⟩

/-- Claim C6, witness: the characterization applied to the concrete
cache state with an intact blob and a missing index file. -/
theorem loadCache_characterization_witness :
    (fsW.blob = some (Except.ok blobW)) ∧
    loadCache true fsW (freshRetriever none (fun _ => []))
      = ({ freshRetriever none (fun _ => []) with
            documents := blobW.documents, bm25 := blobW.bm25 }, true) :=
  ⟨rfl, (loadCache_characterization true fsW (freshRetriever none (fun _ => []))).2.2.1
    blobW rfl rfl rfl⟩

end Rag

